import Mathlib

/-!
Verification of the pysudoku core (sudoku.py)

Shallow embedding of the puzzle-generator core of `sudoku.py`:
the coordinate mapper `get_idx`, the copy-on-write cell writer
`set_value`, the legality checker `check_legal`, the randomized
backtracking generator `makeBoard`, and the masker
`hide_portion_of_board`.

A numpy array of shape (3,3,3,3) holding the 81 cells is modelled as a
`List ℤ` of length 81 laid out in C order (strides 27, 9, 3, 1), the
memory layout of the numpy array.  Python integers are `ℤ`.  A failed
`assert` (the range assert in `get_idx`, which Python raises as an
error and which the spec calls `InvalidCoordinate`) is modelled by
`Option`: `none` is the propagated error.

Randomness (`np.random.choice`, `np.random.randint`) is modelled by an
oracle: the generator machine consumes a stream `ℕ → ℕ` of draws, one
per machine step, and a draw `d` selects element `d % len` of the
candidate list, so every sequence of choices the library could make is
realized by some stream, and every stream realizes a valid sequence of
choices.
-/

/-- The 81 cells of the numpy array of shape (3,3,3,3), C order; a
cell value is a Python integer, hence ℤ. -/
abbrev Board := List ℤ

/-- Linear index of the cell at (cellRows, cell, innerRow, elem) in the
C-order layout of a numpy array of shape (3,3,3,3). -/
def idx4 (a b c d : ℤ) : ℕ := (a * 27 + b * 9 + c * 3 + d).toNat

/-- Read the cell at 4-D index (a, b, c, d). -/
def get4 (board : Board) (a b c d : ℤ) : ℤ := board.getD (idx4 a b c d) 0

/-- Write the cell at 4-D index (a, b, c, d). -/
def set4 (board : Board) (a b c d : ℤ) (v : ℤ) : Board :=
  board.set (idx4 a b c d) v

/-- The function `get_idx(row_idx, col_idx)` from sudoku.py: translates the flat
row/column coordinates into numpy indices
(cellRows, cell, innerRow, elem).  The leading `assert` on the ranges
is the `none` branch; inside the asserted range the source's
`if/elif/elif` chains are transcribed directly. -/
def get_idx (row_idx col_idx : ℤ) : Option (ℤ × ℤ × ℤ × ℤ) :=
  if 0 ≤ row_idx ∧ row_idx ≤ 8 ∧ 0 ≤ col_idx ∧ col_idx ≤ 8 then
    let innerRow : ℤ :=
      if 0 ≤ row_idx ∧ row_idx ≤ 2 then row_idx
      else if 3 ≤ row_idx ∧ row_idx ≤ 5 then row_idx - 3
      else row_idx - 6
    let cellRows : ℤ :=
      if 0 ≤ row_idx ∧ row_idx ≤ 2 then 0
      else if 3 ≤ row_idx ∧ row_idx ≤ 5 then 1
      else 2
    let elem : ℤ :=
      if 0 ≤ col_idx ∧ col_idx ≤ 2 then col_idx
      else if 3 ≤ col_idx ∧ col_idx ≤ 5 then col_idx - 3
      else col_idx - 6
    let cell : ℤ :=
      if 0 ≤ col_idx ∧ col_idx ≤ 2 then 0
      else if 3 ≤ col_idx ∧ col_idx ≤ 5 then 1
      else 2
    some (cellRows, cell, innerRow, elem)
  else none

/-- The function `set_value(row, col, board, value)` from sudoku.py: copies the
board and writes `value` at the cell addressed by `get_idx(row, col)`.
The source performs no check on `value`. -/
def set_value (row col : ℤ) (board : Board) (value : ℤ) : Option Board :=
  match get_idx row col with
  | none => none
  | some (a, b, c, d) => some (set4 board a b c d value)

/-- The index list `[0, 1, 2]` over which numpy slices `[:, :]` of one
axis of the (3,3,3,3) array range. -/
def r3 : List ℤ := [0, 1, 2]

/-- The function `check_legal(row_idx, col_idx, board)` from sudoku.py.  Reads the
target cell; an empty cell (0) is not legal; otherwise counts the
occurrences of the target value in the flattened block slice
`board[cellRows, cell, :, :]`, row slice `board[cellRows, :, innerRow, :]`
and column slice `board[:, cell, :, elem]`, and the cell is legal iff
no slice holds the value more than once. -/
def check_legal (row_idx col_idx : ℤ) (board : Board) : Option Bool :=
  match get_idx row_idx col_idx with
  | none => none
  | some (cellRows, cell, innerRow, elem) =>
    let val := get4 board cellRows cell innerRow elem
    if val = 0 then some false
    else
      let current_cell_values :=
        r3.bind fun i => r3.map fun j => get4 board cellRows cell i j
      let horizontal_to_val :=
        r3.bind fun b => r3.map fun j => get4 board cellRows b innerRow j
      let vertical_to_val :=
        r3.bind fun a => r3.map fun i => get4 board a cell i elem
      some (decide (current_cell_values.count val ≤ 1)
        && decide (horizontal_to_val.count val ≤ 1)
        && decide (vertical_to_val.count val ≤ 1))

/-- The candidate pool `[i for i in range(10)]`. -/
def range10 : List ℤ := [0, 1, 2, 3, 4, 5, 6, 7, 8, 9]

/-- State of the `makeBoard` generation loop: the board, the cursor
`(row_idx, col_idx)`, the candidate pool `possible_values` for the
current cell and the last tried value `val`. -/
structure GenState where
  board : Board
  row_idx : ℤ
  col_idx : ℤ
  possible_values : List ℤ
  val : ℤ
deriving DecidableEq, Repr

/-- Outcome of running the generation loop: still looping, returned a
board, or raised an error from `get_idx`. -/
inductive GenOutcome where
  | running (s : GenState)
  | finished (board : Board)
  | error
deriving DecidableEq, Repr

/-- The draw `np.random.choice(pool)` under the oracle model: draw `d` selects
element `d % pool.length`.  Every element of the pool is selected by
some draw and every draw selects an element of the pool. -/
def choicePick (d : ℕ) (pool : List ℤ) : ℤ := pool.getD (d % pool.length) 0

/-- The rollback `for i in range(rollbacks)` loop of `makeBoard`: zero
the cell at the cursor via `set_value`, then move the cursor one flat
cell backwards (`col_idx -= 1`, or to column 8 of the previous row). -/
def rollbackLoop : ℕ → ℤ → ℤ → Board → Option (ℤ × ℤ × Board)
  | 0, r, c, b => some (r, c, b)
  | n + 1, r, c, b =>
    match set_value r c b 0 with
    | none => none
    | some b2 =>
      if 0 < c then rollbackLoop n r (c - 1) b2
      else rollbackLoop n (r - 1) 8 b2

/-- One iteration of the innermost `while not check_legal(...)` loop of
`makeBoard`, including (when the check succeeds) the exit of that loop:
`col_idx += 1`, the re-entry of the column loop with a fresh candidate
pool, the row advance, and the return of the finished board.  The
branches mirror the source: on an illegal cell, an empty pool triggers
the bounded rollback `min(rollback_factor, col_idx + row_idx * 8)`;
otherwise the last tried value is removed from the pool (Python
`list.remove`), an empty remainder `continue`s, and otherwise a random
candidate is drawn and written to the board. -/
def makeBoardStep (rollback_factor : ℤ) (d : ℕ) (s : GenState) : GenOutcome :=
  match check_legal s.row_idx s.col_idx s.board with
  | none => .error
  | some true =>
    if s.col_idx + 1 < 9 then
      .running ⟨s.board, s.row_idx, s.col_idx + 1, range10, 0⟩
    else if s.row_idx + 1 < 9 then
      .running ⟨s.board, s.row_idx + 1, 0, range10, 0⟩
    else .finished s.board
  | some false =>
    if s.possible_values.isEmpty then
      match rollbackLoop (min rollback_factor (s.col_idx + s.row_idx * 8)).toNat
          s.row_idx s.col_idx s.board with
      | none => .error
      | some (r, c, b) => .running ⟨b, r, c, range10, 0⟩
    else
      if (s.possible_values.erase s.val).isEmpty then
        .running ⟨s.board, s.row_idx, s.col_idx,
          s.possible_values.erase s.val, s.val⟩
      else
        match set_value s.row_idx s.col_idx s.board
            (choicePick d (s.possible_values.erase s.val)) with
        | none => .error
        | some b =>
          .running ⟨b, s.row_idx, s.col_idx, s.possible_values.erase s.val,
            choicePick d (s.possible_values.erase s.val)⟩

/-- The step `makeBoardStep` lifted to outcomes; a finished or errored loop
stays finished or errored. -/
def stepO (rollback_factor : ℤ) (d : ℕ) : GenOutcome → GenOutcome
  | .running s => makeBoardStep rollback_factor d s
  | o => o

/-- Run `n` iterations of the generation loop, feeding draws
`stream a, stream (a+1), ...` (draw `stream (a+i)` is used by the
`i`-th iteration). -/
def runSeg (rollback_factor : ℤ) (stream : ℕ → ℕ) (a : ℕ) :
    ℕ → GenOutcome → GenOutcome
  | 0, o => o
  | n + 1, o => stepO rollback_factor (stream (a + n)) (runSeg rollback_factor stream a n o)

/-- The initial state of `makeBoard`: the all-zero board (the
`np.random.randint` board on line 42 is dead code, immediately
overwritten by `np.zeros`), cursor (0,0), fresh candidate pool. -/
def initState : GenState := ⟨List.replicate 81 0, 0, 0, range10, 0⟩

/-- The loop of `makeBoard(rollback_factor)` run for `n` iterations under the
draw stream `stream`. -/
def makeBoardRun (rollback_factor : ℤ) (stream : ℕ → ℕ) (n : ℕ) : GenOutcome :=
  runSeg rollback_factor stream 0 n (.running initState)

/-! ## Concrete runs of the generator

`demoStream` drives the generator to a complete board: at each cell it
draws the digit of a known valid Sudoku grid (the cyclic pattern whose
row `r` is `1..9` shifted by `3*(r%3) + r/3`), which `check_legal`
accepts at once.

`badStream` drives the generator into an infinite loop: it first fills
rows 0..2 with the same cyclic band and row 3 with
`2 1 4 3 6 5 8 7 _`, reaching cell (3,8) where no digit is legal (the
row forces 9 but column 8 already holds a 9); each rollback of the
default 8 cells keeps cell (3,0) and the stream then re-draws the same
seven values, returning to the identical dead end forever. -/

/-- Draw stream whose cell draws follow the cyclic valid grid; odd
steps (the cursor-advance steps) never draw. -/
def demoStream (n : ℕ) : ℕ :=
  if n % 2 = 0 then
    (3 * ((n / 2 / 9) % 3) + (n / 2 / 9) / 3 + (n / 2 % 9)) % 9
  else 0

/-- The complete board the `demoStream` run produces: cell (r,c) holds
`(3*(r%3) + r/3 + c) % 9 + 1`, listed in the C-order layout. -/
def demoBoard : Board :=
  (List.range 81).map fun k =>
    ((3 * ((3 * (k / 27) + (k % 9) / 3) % 3) + (3 * (k / 27) + (k % 9) / 3) / 3
        + (3 * ((k % 27) / 9) + k % 3)) % 9 + 1 : ℤ)

/-- Value placed at row-major cell number `i` by the bad prefix:
rows 0..2 of the cyclic grid, then `2 1 4 3 6 5 8 7` on row 3. -/
def badCellVal (i : ℕ) : ℕ :=
  if i < 27 then (3 * ((i / 9) % 3) + (i / 9) / 3 + (i % 9)) % 9 + 1
  else [2, 1, 4, 3, 6, 5, 8, 7].getD (i - 27) 0

/-- One period of the bad stream: exhaust the dead cell (3,8) (nine
draws of index 0 pick 1..9 in turn), roll back, then re-place the same
seven values on cells (3,1)..(3,7). -/
def badCyc : List ℕ :=
  [0, 0, 0, 0, 0, 0, 0, 0, 0, 0, 0, 0, 0, 0, 3, 0, 2, 0, 5, 0, 4, 0, 7, 0, 6, 0]

/-- The draw stream under which `makeBoard` never terminates: the
70-step prefix reaches the dead end at (3,8), then the 26-step cycle
repeats forever. -/
def badStream (n : ℕ) : ℕ :=
  if n < 70 then (if n % 2 = 0 then badCellVal (n / 2) - 1 else 0)
  else badCyc.getD ((n - 70) % 26) 0

/-- The state of the bad run after 70 steps (and again after every
further 26 steps): cursor at the dead cell (3,8), fresh candidate
pool, rows 0..2 full, row 3 holding `2 1 4 3 6 5 8 7 _`. -/
def cycState : GenState :=
  ⟨[1, 2, 3, 4, 5, 6, 7, 8, 9, 4, 5, 6, 7, 8, 9, 1, 2, 3, 7, 8, 9, 1, 2, 3, 4, 5, 6,
    2, 1, 4, 0, 0, 0, 0, 0, 0, 3, 6, 5, 0, 0, 0, 0, 0, 0, 8, 7, 0, 0, 0, 0, 0, 0, 0]
      ++ List.replicate 27 0,
    3, 8, range10, 0⟩

/-! ## The masker -/

/-- The cell count `num_to_hide = int(np.prod(board.shape) * difficulty)`
of `hide_portion_of_board`; `np.prod(board.shape) = 81` and Python
`int()` truncates toward zero. -/
def num_to_hide (difficulty : ℚ) : ℤ :=
  if 0 ≤ 81 * difficulty then ⌊81 * difficulty⌋ else ⌈81 * difficulty⌉

/-- The hiding loop of `hide_portion_of_board`: the i-th iteration
zeroes the cell at the i-th drawn coordinate pair via `set_value`.
`np.random.randint(0, 9, (num_to_hide, 2))` draws pairs in 0..8, so the
oracle `ind` produces `Fin 9 × Fin 9` pairs. -/
def hideLoop (ind : ℕ → Fin 9 × Fin 9) : ℕ → Board → Option Board
  | 0, b => some b
  | i + 1, b =>
    match hideLoop ind i b with
    | none => none
    | some b2 => set_value ((ind i).1.val : ℤ) ((ind i).2.val : ℤ) b2 0

/-- The function `hide_portion_of_board(board, difficulty)` from sudoku.py, with the
random coordinate pairs supplied by the oracle `ind`. -/
def hide_portion_of_board (board : Board) (difficulty : ℚ)
    (ind : ℕ → Fin 9 × Fin 9) : Option Board :=
  hideLoop ind (num_to_hide difficulty).toNat board

/-! ## Specification-side vocabulary

The flat (row, col) addressing, derived region structure, and the
invariants the claims speak about. -/

/-- Modelled from the spec: the inverse Coordinate Mapper `to_flat`,
which is absent from the source (only `get_idx` exists there).  The
spec's mapping rule `block = row // 3`, `inner = row % 3` inverts to
`row = 3 * block_row + inner_row`, `col = 3 * block_col + inner_col`. -/
def to_flat (t : ℤ × ℤ × ℤ × ℤ) : ℤ × ℤ :=
  (3 * t.1 + t.2.2.1, 3 * t.2.1 + t.2.2.2)

/-- The flat coordinates (row, col) are both in 0..8. -/
def inB (r c : ℤ) : Prop := 0 ≤ r ∧ r ≤ 8 ∧ 0 ≤ c ∧ c ≤ 8

instance (r c : ℤ) : Decidable (inB r c) := by unfold inB; infer_instance

/-- The cell of a board at flat coordinates (row, col), read through
the coordinate mapping `(row / 3, col / 3, row % 3, col % 3)`. -/
def cellR (b : Board) (r c : ℤ) : ℤ := get4 b (r / 3) (c / 3) (r % 3) (c % 3)

/-- Functional write at flat coordinates (row, col). -/
def setR (b : Board) (r c : ℤ) (v : ℤ) : Board :=
  set4 b (r / 3) (c / 3) (r % 3) (c % 3) v

/-- Row-major rank of a flat coordinate, the order in which the
generator visits cells. -/
def flatPos (r c : ℤ) : ℤ := 9 * r + c

/-- The set of flat coordinates at which two boards differ. -/
def changedCells (b b2 : Board) : Finset (Fin 9 × Fin 9) :=
  Finset.univ.filter fun p =>
    cellR b2 (p.1.val : ℤ) (p.2.val : ℤ) ≠ cellR b (p.1.val : ℤ) (p.2.val : ℤ)

/-- Two flat coordinates lie in the same 3x3 block. -/
def sameBlock (r c r2 c2 : ℤ) : Prop := r / 3 = r2 / 3 ∧ c / 3 = c2 / 3

instance (r c r2 c2 : ℤ) : Decidable (sameBlock r c r2 c2) := by
  unfold sameBlock
  infer_instance

/-- Two flat coordinates constrain each other: same block, same flat
row, or same flat column. -/
def peers (r c r2 c2 : ℤ) : Prop := sameBlock r c r2 c2 ∨ r = r2 ∨ c = c2

/-- No cell other than (r, c) among its peers holds the value of
(r, c). -/
def noOther (b : Board) (r c : ℤ) : Prop :=
  ∀ r2 c2 : ℤ, inB r2 c2 → peers r c r2 c2 → ¬(r2 = r ∧ c2 = c) →
    cellR b r2 c2 ≠ cellR b r c

/-- The partial-board invariant: no block, flat row, or flat column
holds the same non-zero value twice. -/
def noDup (b : Board) : Prop :=
  ∀ r c : ℤ, inB r c → cellR b r c ≠ 0 → noOther b r c

def L9 : List ℤ := [0, 1, 2, 3, 4, 5, 6, 7, 8]

def digits : List ℤ := [1, 2, 3, 4, 5, 6, 7, 8, 9]

/-- The nine cells of flat row r. -/
def rowList (b : Board) (r : ℤ) : List ℤ := L9.map fun c => cellR b r c

/-- The nine cells of flat column c. -/
def colList (b : Board) (c : ℤ) : List ℤ := L9.map fun r => cellR b r c

/-- The nine cells of the block at block coordinates (br, bc). -/
def blockList (b : Board) (br bc : ℤ) : List ℤ :=
  r3.bind fun i => r3.map fun j => cellR b (3 * br + i) (3 * bc + j)

/-- The full-board invariant: no cell is zero, and every flat row,
every flat column, and every block contains each digit 1..9 exactly
once. -/
def fullInv (b : Board) : Prop :=
  (∀ r ∈ L9, ∀ c ∈ L9, cellR b r c ≠ 0) ∧
  (∀ r ∈ L9, ∀ v ∈ digits, (rowList b r).count v = 1) ∧
  (∀ c ∈ L9, ∀ v ∈ digits, (colList b c).count v = 1) ∧
  (∀ br ∈ r3, ∀ bc ∈ r3, ∀ v ∈ digits, (blockList b br bc).count v = 1)

/-- Every cell of the board holds a value in 0..9. -/
def cellRange (b : Board) : Prop :=
  ∀ r c : ℤ, inB r c → 0 ≤ cellR b r c ∧ cellR b r c ≤ 9

/-- The generation-loop invariant: the board has its 81 cells, the
cursor is on the board, the candidate pool holds values 0..9, every
cell holds 0..9, the cells before the cursor (row-major) are filled,
the cells after it are empty, and the board with the cursor cell
blanked satisfies the partial-board invariant. -/
def MachineInv (s : GenState) : Prop :=
  s.board.length = 81 ∧
  inB s.row_idx s.col_idx ∧
  s.possible_values ⊆ range10 ∧
  cellRange s.board ∧
  (∀ r c : ℤ, inB r c → flatPos r c < flatPos s.row_idx s.col_idx →
    cellR s.board r c ≠ 0) ∧
  (∀ r c : ℤ, inB r c → flatPos s.row_idx s.col_idx < flatPos r c →
    cellR s.board r c = 0) ∧
  noDup (setR s.board s.row_idx s.col_idx 0)

/-- The invariant carried through a run: a running state satisfies the
machine invariant, a finished board satisfies the full-board
invariant, and the error outcome is unreachable. -/
def OutInv : GenOutcome → Prop
  | .running s => MachineInv s
  | .finished b => fullInv b
  | .error => False

/-- The nine (inner-row, inner-col) index pairs of one 3x3 slice. -/
def E33 : List (ℤ × ℤ) := r3.bind fun i => r3.map fun j => (i, j)

/-- The predicate `noOther` restricted to the containing block. -/
def noOtherBlock (b : Board) (r c : ℤ) : Prop :=
  ∀ r2 c2 : ℤ, inB r2 c2 → sameBlock r c r2 c2 → ¬(r2 = r ∧ c2 = c) →
    cellR b r2 c2 ≠ cellR b r c

/-- The predicate `noOther` restricted to the containing flat row. -/
def noOtherRow (b : Board) (r c : ℤ) : Prop :=
  ∀ c2 : ℤ, 0 ≤ c2 → c2 ≤ 8 → c2 ≠ c → cellR b r c2 ≠ cellR b r c

/-- The predicate `noOther` restricted to the containing flat column. -/
def noOtherCol (b : Board) (r c : ℤ) : Prop :=
  ∀ r2 : ℤ, 0 ≤ r2 → r2 ≤ 8 → r2 ≠ r → cellR b r2 c ≠ cellR b r c

/-! ## Coordinate mapper lemmas -/

/-- Inside the asserted range, `get_idx` computes division and
remainder by 3. -/
lemma get_idx_spec {r c : ℤ} (h : inB r c) :
    get_idx r c = some (r / 3, c / 3, r % 3, c % 3) := by
  obtain ⟨h1, h2, h3, h4⟩ := h
  interval_cases r <;> interval_cases c <;> rfl

lemma get_idx_eq_none_iff (r c : ℤ) :
    get_idx r c = none ↔ ¬(0 ≤ r ∧ r ≤ 8 ∧ 0 ≤ c ∧ c ≤ 8) := by
  unfold get_idx
  split_ifs with h <;> simp [h]

lemma idx4_lt {a b c d : ℤ} (ha1 : 0 ≤ a) (ha2 : a ≤ 2) (hb1 : 0 ≤ b)
    (hb2 : b ≤ 2) (hc1 : 0 ≤ c) (hc2 : c ≤ 2) (hd1 : 0 ≤ d) (hd2 : d ≤ 2) :
    idx4 a b c d < 81 := by
  unfold idx4; omega

lemma setR_length (b : Board) (r c : ℤ) (v : ℤ) :
    (setR b r c v).length = b.length := by
  unfold setR set4; exact List.length_set ..

/-- Reading after a functional write: the written cell holds the new
value, every other cell is unchanged. -/
lemma cellR_setR (b : Board) (hb : b.length = 81) {r1 c1 : ℤ} (r2 c2 : ℤ)
    (h1 : inB r1 c1) (h2 : inB r2 c2) (v : ℤ) :
    cellR (setR b r1 c1 v) r2 c2 =
      if r2 = r1 ∧ c2 = c1 then v else cellR b r2 c2 := by
  obtain ⟨ha1, ha2, ha3, ha4⟩ := h1
  obtain ⟨hb1, hb2, hb3, hb4⟩ := h2
  have hlt : idx4 (r1 / 3) (c1 / 3) (r1 % 3) (c1 % 3) < b.length := by
    rw [hb]
    exact idx4_lt (by omega) (by omega) (by omega) (by omega)
      (by omega) (by omega) (by omega) (by omega)
  unfold cellR setR get4 set4
  by_cases heq : r2 = r1 ∧ c2 = c1
  · obtain ⟨e1, e2⟩ := heq
    rw [if_pos ⟨e1, e2⟩, e1, e2]
    rw [List.getD_eq_getElem?_getD, List.getElem?_set_eq_of_lt v hlt]
    rfl
  · rw [if_neg heq]
    have hne : idx4 (r1 / 3) (c1 / 3) (r1 % 3) (c1 % 3) ≠
        idx4 (r2 / 3) (c2 / 3) (r2 % 3) (c2 % 3) := by
      intro he
      unfold idx4 at he
      exact heq (by constructor <;> omega)
    rw [List.getD_eq_getElem?_getD, List.getElem?_set_ne hne,
      ← List.getD_eq_getElem?_getD]

/-- On in-range coordinates `set_value` is the functional write. -/
lemma set_value_eq {r c : ℤ} (h : inB r c) (b : Board) (v : ℤ) :
    set_value r c b v = some (setR b r c v) := by
  unfold set_value
  rw [get_idx_spec h]
  rfl

lemma set_value_eq_none_iff (r c : ℤ) (b : Board) (v : ℤ) :
    set_value r c b v = none ↔ ¬(0 ≤ r ∧ r ≤ 8 ∧ 0 ≤ c ∧ c ≤ 8) := by
  unfold set_value
  rcases hg : get_idx r c with _ | t
  · simpa using (get_idx_eq_none_iff r c).mp hg
  · obtain ⟨a, b2, c2, d⟩ := t
    constructor
    · intro hcontra; exact absurd hcontra (by simp)
    · intro hout
      exact absurd hg (by rw [(get_idx_eq_none_iff r c).mpr hout]; simp)

/-! ## Counting lemmas for the legality checker -/

lemma length_le_one_of_nodup_all_eq {α : Type} (l : List α) (hnd : l.Nodup)
    (a : α) (h : ∀ x ∈ l, x = a) : l.length ≤ 1 := by
  cases l with
  | nil => simp
  | cons x xs =>
    cases xs with
    | nil => simp
    | cons y ys =>
      exfalso
      have hx := h x (by simp)
      have hy := h y (by simp)
      rw [List.nodup_cons] at hnd
      exact hnd.1 (by rw [hx, ← hy]; simp)

/-- Counting a value in the image of a duplicate-free enumeration:
at most one occurrence iff no point other than the known preimage `t`
maps to the value. -/
lemma count_map_le_one_iff {α : Type} [DecidableEq α] (E : List α)
    (f : α → ℤ) (t : α) (hnd : E.Nodup) (ht : t ∈ E) :
    (E.map f).count (f t) ≤ 1 ↔ ∀ p ∈ E, p ≠ t → f p ≠ f t := by
  rw [List.count, List.countP_eq_length_filter, List.filter_map,
    List.length_map]
  have hfil : ∀ p : α, p ∈ E.filter ((fun x => x == f t) ∘ f) ↔
      p ∈ E ∧ f p = f t := by
    intro p
    rw [List.mem_filter]
    simp [Function.comp]
  constructor
  · intro hl p hp hpt hfp
    have htF : t ∈ E.filter ((fun x => x == f t) ∘ f) := (hfil t).mpr ⟨ht, rfl⟩
    have hpF : p ∈ E.filter ((fun x => x == f t) ∘ f) := (hfil p).mpr ⟨hp, hfp⟩
    have hndF : (E.filter ((fun x => x == f t) ∘ f)).Nodup := hnd.filter _
    have hsub : ({p, t} : Finset α) ⊆
        (E.filter ((fun x => x == f t) ∘ f)).toFinset := by
      intro x hx
      rw [Finset.mem_insert, Finset.mem_singleton] at hx
      rcases hx with rfl | rfl <;> rw [List.mem_toFinset] <;> assumption
    have hcard := Finset.card_le_card hsub
    rw [List.toFinset_card_of_nodup hndF,
      Finset.card_insert_of_not_mem (by simp [hpt]), Finset.card_singleton]
      at hcard
    omega
  · intro hp
    apply length_le_one_of_nodup_all_eq _ (hnd.filter _) t
    intro x hx
    obtain ⟨hxE, hxv⟩ := (hfil x).mp hx
    by_contra hne
    exact hp x hxE hne hxv

lemma E33_nodup : E33.Nodup := by decide

lemma E33_bounds : ∀ p ∈ E33, 0 ≤ p.1 ∧ p.1 ≤ 2 ∧ 0 ≤ p.2 ∧ p.2 ≤ 2 := by
  decide

lemma mem_E33 {x y : ℤ} (hx1 : 0 ≤ x) (hx2 : x ≤ 2) (hy1 : 0 ≤ y)
    (hy2 : y ≤ 2) : (x, y) ∈ E33 := by
  unfold E33 r3
  simp only [List.bind_eq_flatMap, List.mem_flatMap, List.mem_map,
    List.mem_cons, List.not_mem_nil, or_false, Prod.mk.injEq]
  refine ⟨x, by omega, y, by omega, rfl, rfl⟩

/-! ## Characterizing check_legal -/

/-- On in-range coordinates, `check_legal` computes the three slice
counts of the target value. -/
lemma check_legal_eq_of_inB {r c : ℤ} (h : inB r c) (b : Board) :
    check_legal r c b =
      (if get4 b (r / 3) (c / 3) (r % 3) (c % 3) = 0 then some false
       else some
        (decide ((r3.bind fun i => r3.map fun j =>
            get4 b (r / 3) (c / 3) i j).count
            (get4 b (r / 3) (c / 3) (r % 3) (c % 3)) ≤ 1)
         && decide ((r3.bind fun b2 => r3.map fun j =>
            get4 b (r / 3) b2 (r % 3) j).count
            (get4 b (r / 3) (c / 3) (r % 3) (c % 3)) ≤ 1)
         && decide ((r3.bind fun a => r3.map fun i =>
            get4 b a (c / 3) i (c % 3)).count
            (get4 b (r / 3) (c / 3) (r % 3) (c % 3)) ≤ 1))) := by
  unfold check_legal
  rw [get_idx_spec h]

/-- The block-slice count is at most one iff no other cell of the
block holds the target value. -/
lemma block_count_iff {r c : ℤ} (h : inB r c) (b : Board) :
    ((r3.bind fun i => r3.map fun j => get4 b (r / 3) (c / 3) i j).count
        (cellR b r c) ≤ 1) ↔ noOtherBlock b r c := by
  obtain ⟨h1, h2, h3, h4⟩ := h
  have hmapeq : (r3.bind fun i => r3.map fun j => get4 b (r / 3) (c / 3) i j)
      = E33.map fun p => get4 b (r / 3) (c / 3) p.1 p.2 := rfl
  have hmem : ((r % 3, c % 3) : ℤ × ℤ) ∈ E33 :=
    mem_E33 (by omega) (by omega) (by omega) (by omega)
  have hft : (fun p : ℤ × ℤ => get4 b (r / 3) (c / 3) p.1 p.2) (r % 3, c % 3)
      = cellR b r c := rfl
  rw [hmapeq, ← hft,
    count_map_le_one_iff E33 (fun p : ℤ × ℤ => get4 b (r / 3) (c / 3) p.1 p.2)
      ((r % 3, c % 3) : ℤ × ℤ) E33_nodup hmem]
  constructor
  · intro hE r2 c2 hin hsb hne
    obtain ⟨hs1, hs2⟩ := hsb
    obtain ⟨g1, g2, g3, g4⟩ := hin
    have hp : ((r2 % 3, c2 % 3) : ℤ × ℤ) ∈ E33 :=
      mem_E33 (by omega) (by omega) (by omega) (by omega)
    have hpt : ((r2 % 3, c2 % 3) : ℤ × ℤ) ≠ ((r % 3, c % 3) : ℤ × ℤ) := by
      simp only [ne_eq, Prod.mk.injEq, not_and]
      intro he1 he2
      exact hne ⟨by omega, by omega⟩
    have hres := hE (r2 % 3, c2 % 3) hp hpt
    unfold cellR
    rw [← hs1, ← hs2]
    exact hres
  · intro hB p hp hpt
    obtain ⟨q1, q2, q3, q4⟩ := E33_bounds p hp
    have hin : inB (3 * (r / 3) + p.1) (3 * (c / 3) + p.2) :=
      ⟨by omega, by omega, by omega, by omega⟩
    have hsb : sameBlock r c (3 * (r / 3) + p.1) (3 * (c / 3) + p.2) :=
      ⟨by omega, by omega⟩
    have hne : ¬(3 * (r / 3) + p.1 = r ∧ 3 * (c / 3) + p.2 = c) := by
      rintro ⟨e1, e2⟩
      apply hpt
      have w1 : p.1 = r % 3 := by omega
      have w2 : p.2 = c % 3 := by omega
      rw [← w1, ← w2]
    have hres := hB _ _ hin hsb hne
    unfold cellR at hres
    have e1 : (3 * (r / 3) + p.1) / 3 = r / 3 := by omega
    have e2 : (3 * (r / 3) + p.1) % 3 = p.1 := by omega
    have e3 : (3 * (c / 3) + p.2) / 3 = c / 3 := by omega
    have e4 : (3 * (c / 3) + p.2) % 3 = p.2 := by omega
    rw [e1, e2, e3, e4] at hres
    exact hres

/-- The row-slice count is at most one iff no other cell of the flat
row holds the target value. -/
lemma row_count_iff {r c : ℤ} (h : inB r c) (b : Board) :
    ((r3.bind fun b2 => r3.map fun j => get4 b (r / 3) b2 (r % 3) j).count
        (cellR b r c) ≤ 1) ↔ noOtherRow b r c := by
  obtain ⟨h1, h2, h3, h4⟩ := h
  have hmapeq : (r3.bind fun b2 => r3.map fun j => get4 b (r / 3) b2 (r % 3) j)
      = E33.map fun p => get4 b (r / 3) p.1 (r % 3) p.2 := rfl
  have hmem : ((c / 3, c % 3) : ℤ × ℤ) ∈ E33 :=
    mem_E33 (by omega) (by omega) (by omega) (by omega)
  have hft : (fun p : ℤ × ℤ => get4 b (r / 3) p.1 (r % 3) p.2) (c / 3, c % 3)
      = cellR b r c := rfl
  rw [hmapeq, ← hft,
    count_map_le_one_iff E33 (fun p : ℤ × ℤ => get4 b (r / 3) p.1 (r % 3) p.2)
      ((c / 3, c % 3) : ℤ × ℤ) E33_nodup hmem]
  constructor
  · intro hE c2 hc1 hc2 hne
    have hp : ((c2 / 3, c2 % 3) : ℤ × ℤ) ∈ E33 :=
      mem_E33 (by omega) (by omega) (by omega) (by omega)
    have hpt : ((c2 / 3, c2 % 3) : ℤ × ℤ) ≠ ((c / 3, c % 3) : ℤ × ℤ) := by
      simp only [ne_eq, Prod.mk.injEq, not_and]
      intro he1 he2
      exact hne (by omega)
    exact hE (c2 / 3, c2 % 3) hp hpt
  · intro hR p hp hpt
    obtain ⟨q1, q2, q3, q4⟩ := E33_bounds p hp
    have hne : 3 * p.1 + p.2 ≠ c := by
      intro he
      apply hpt
      have w1 : p.1 = c / 3 := by omega
      have w2 : p.2 = c % 3 := by omega
      rw [← w1, ← w2]
    have hres := hR (3 * p.1 + p.2) (by omega) (by omega) hne
    unfold cellR at hres
    have e1 : (3 * p.1 + p.2) / 3 = p.1 := by omega
    have e2 : (3 * p.1 + p.2) % 3 = p.2 := by omega
    rw [e1, e2] at hres
    exact hres

/-- The column-slice count is at most one iff no other cell of the
flat column holds the target value. -/
lemma col_count_iff {r c : ℤ} (h : inB r c) (b : Board) :
    ((r3.bind fun a => r3.map fun i => get4 b a (c / 3) i (c % 3)).count
        (cellR b r c) ≤ 1) ↔ noOtherCol b r c := by
  obtain ⟨h1, h2, h3, h4⟩ := h
  have hmapeq : (r3.bind fun a => r3.map fun i => get4 b a (c / 3) i (c % 3))
      = E33.map fun p => get4 b p.1 (c / 3) p.2 (c % 3) := rfl
  have hmem : ((r / 3, r % 3) : ℤ × ℤ) ∈ E33 :=
    mem_E33 (by omega) (by omega) (by omega) (by omega)
  have hft : (fun p : ℤ × ℤ => get4 b p.1 (c / 3) p.2 (c % 3)) (r / 3, r % 3)
      = cellR b r c := rfl
  rw [hmapeq, ← hft,
    count_map_le_one_iff E33 (fun p : ℤ × ℤ => get4 b p.1 (c / 3) p.2 (c % 3))
      ((r / 3, r % 3) : ℤ × ℤ) E33_nodup hmem]
  constructor
  · intro hE r2 hr1 hr2 hne
    have hp : ((r2 / 3, r2 % 3) : ℤ × ℤ) ∈ E33 :=
      mem_E33 (by omega) (by omega) (by omega) (by omega)
    have hpt : ((r2 / 3, r2 % 3) : ℤ × ℤ) ≠ ((r / 3, r % 3) : ℤ × ℤ) := by
      simp only [ne_eq, Prod.mk.injEq, not_and]
      intro he1 he2
      exact hne (by omega)
    exact hE (r2 / 3, r2 % 3) hp hpt
  · intro hC p hp hpt
    obtain ⟨q1, q2, q3, q4⟩ := E33_bounds p hp
    have hne : 3 * p.1 + p.2 ≠ r := by
      intro he
      apply hpt
      have w1 : p.1 = r / 3 := by omega
      have w2 : p.2 = r % 3 := by omega
      rw [← w1, ← w2]
    have hres := hC (3 * p.1 + p.2) (by omega) (by omega) hne
    unfold cellR at hres
    have e1 : (3 * p.1 + p.2) / 3 = p.1 := by omega
    have e2 : (3 * p.1 + p.2) % 3 = p.2 := by omega
    rw [e1, e2] at hres
    exact hres

/-- The predicate `noOther` splits into its three regions. -/
lemma noOther_iff {r c : ℤ} (h : inB r c) (b : Board) :
    noOther b r c ↔ noOtherBlock b r c ∧ noOtherRow b r c ∧ noOtherCol b r c := by
  constructor
  · intro hno
    refine ⟨?_, ?_, ?_⟩
    · intro r2 c2 hin hsb hne
      exact hno r2 c2 hin (Or.inl hsb) hne
    · intro c2 g1 g2 hne
      exact hno r c2 ⟨h.1, h.2.1, g1, g2⟩ (Or.inr (Or.inl rfl))
        (by rintro ⟨_, e⟩; exact hne e)
    · intro r2 g1 g2 hne
      exact hno r2 c ⟨g1, g2, h.2.2.1, h.2.2.2⟩ (Or.inr (Or.inr rfl))
        (by rintro ⟨e, _⟩; exact hne e)
  · rintro ⟨hbl, hrw, hcl⟩ r2 c2 hin hp hne
    rcases hp with hsb | he | he
    · exact hbl r2 c2 hin hsb hne
    · rw [← he]
      apply hrw c2 hin.2.2.1 hin.2.2.2
      intro ec
      exact hne ⟨he.symm, ec⟩
    · rw [← he]
      apply hcl r2 hin.1 hin.2.1
      intro er
      exact hne ⟨er, he.symm⟩

/-- The behaviour of `check_legal` at in-range coordinates: it returns
a result (no error), and the result is `true` iff the target cell is
non-empty and no other cell of its block, flat row, or flat column
holds its value. -/
lemma check_legal_iff {r c : ℤ} (h : inB r c) (b : Board) :
    ∃ res : Bool, check_legal r c b = some res ∧
      (res = true ↔ (cellR b r c ≠ 0 ∧ noOther b r c)) := by
  rw [check_legal_eq_of_inB h b]
  have hcv : get4 b (r / 3) (c / 3) (r % 3) (c % 3) = cellR b r c := rfl
  by_cases hv : get4 b (r / 3) (c / 3) (r % 3) (c % 3) = 0
  · rw [if_pos hv]
    rw [hcv] at hv
    exact ⟨false, rfl, by simp [hv]⟩
  · rw [if_neg hv]
    refine ⟨_, rfl, ?_⟩
    rw [hcv] at hv ⊢
    simp only [Bool.and_eq_true, decide_eq_true_eq]
    rw [block_count_iff h b, row_count_iff h b, col_count_iff h b,
      noOther_iff h b]
    constructor
    · rintro ⟨⟨g1, g2⟩, g3⟩
      exact ⟨hv, g1, g2, g3⟩
    · rintro ⟨_, g1, g2, g3⟩
      exact ⟨⟨g1, g2⟩, g3⟩

/-! ## Helpers for the generator invariant -/

lemma range10_vals : ∀ v ∈ range10, 0 ≤ v ∧ v ≤ 9 := by decide

lemma L9_vals : ∀ x ∈ L9, 0 ≤ x ∧ x ≤ 8 := by decide

lemma choicePick_mem (d : ℕ) (pool : List ℤ) (h : pool ≠ []) :
    choicePick d pool ∈ pool := by
  unfold choicePick
  have hl : d % pool.length < pool.length :=
    Nat.mod_lt _ (List.length_pos.mpr h)
  rw [List.getD_eq_getElem?_getD, List.getElem?_eq_getElem hl]
  exact List.getElem_mem hl

lemma cellR_zeroBoard (x y : ℤ) : cellR (List.replicate 81 (0 : ℤ)) x y = 0 := by
  unfold cellR get4
  rw [List.getD_eq_getElem?_getD]
  rcases h : (List.replicate 81 (0 : ℤ))[idx4 (x / 3) (y / 3) (x % 3) (y % 3)]?
    with _ | w
  · rfl
  · have := List.getElem?_mem h
    rw [List.eq_of_mem_replicate this]
    rfl

lemma peers_symm {r c r2 c2 : ℤ} (h : peers r c r2 c2) : peers r2 c2 r c := by
  rcases h with ⟨e1, e2⟩ | e | e
  · exact Or.inl ⟨e1.symm, e2.symm⟩
  · exact Or.inr (Or.inl e.symm)
  · exact Or.inr (Or.inr e.symm)

/-- Zeroing or keeping cells pointwise preserves the partial-board
invariant. -/
lemma noDup_of_pointwise (X Y : Board)
    (h : ∀ r c : ℤ, inB r c → cellR X r c = cellR Y r c ∨ cellR X r c = 0)
    (hY : noDup Y) : noDup X := by
  intro r c hin hne0 r2 c2 hin2 hp hne
  rcases h r c hin with hx | hx
  · rcases h r2 c2 hin2 with hx2 | hx2
    · rw [hx, hx2]
      exact hY r c hin (by rw [← hx]; exact hne0) r2 c2 hin2 hp hne
    · rw [hx2, hx]
      intro he
      rw [← hx] at he
      exact hne0 he.symm
  · exact absurd hx hne0

/-- If the cursor cell is legal, restoring it to the blanked board
keeps the partial-board invariant. -/
lemma noDup_of_place (b : Board) (hb : b.length = 81) {r c : ℤ}
    (h : inB r c) (hno : noOther b r c)
    (hzero : noDup (setR b r c 0)) : noDup b := by
  intro x y hinxy hne0 u v hinuv hp hne
  by_cases hxy : x = r ∧ y = c
  · obtain ⟨e1, e2⟩ := hxy
    subst e1; subst e2
    exact hno u v hinuv hp hne
  · by_cases huv : u = r ∧ v = c
    · obtain ⟨e1, e2⟩ := huv
      subst e1; subst e2
      exact (hno x y hinxy (peers_symm hp) hxy).symm
    · have hXx : cellR (setR b r c 0) x y = cellR b x y := by
        rw [cellR_setR b hb x y h hinxy 0, if_neg hxy]
      have hXu : cellR (setR b r c 0) u v = cellR b u v := by
        rw [cellR_setR b hb u v h hinuv 0, if_neg huv]
      have := hzero x y hinxy (by rw [hXx]; exact hne0) u v hinuv hp hne
      rw [hXx, hXu] at this
      exact this

/-! ## runSeg algebra -/

lemma runSeg_finished (rbf : ℤ) (stream : ℕ → ℕ) (a n : ℕ) (b : Board) :
    runSeg rbf stream a n (.finished b) = .finished b := by
  induction n with
  | zero => rfl
  | succ n ih => rw [runSeg, ih]; rfl

lemma runSeg_append (rbf : ℤ) (stream : ℕ → ℕ) (a m n : ℕ) (o : GenOutcome) :
    runSeg rbf stream a (m + n) o =
      runSeg rbf stream (a + m) n (runSeg rbf stream a m o) := by
  induction n with
  | zero => rfl
  | succ n ih =>
    rw [show m + (n + 1) = (m + n) + 1 from rfl, runSeg, ih, runSeg,
      show a + (m + n) = a + m + n by omega]

lemma runSeg_congr_stream (rbf : ℤ) (s1 s2 : ℕ → ℕ) (a1 a2 n : ℕ)
    (o : GenOutcome) (h : ∀ i, i < n → s1 (a1 + i) = s2 (a2 + i)) :
    runSeg rbf s1 a1 n o = runSeg rbf s2 a2 n o := by
  induction n with
  | zero => rfl
  | succ n ih =>
    rw [runSeg, runSeg, ih (fun i hi => h i (by omega)), h n (by omega)]

/-- What the rollback loop does when it has room: it cannot error, it
moves the cursor back one flat cell per iteration, and it zeroes
exactly the cells between its final position (exclusive) and its
starting position (inclusive). -/
lemma rollbackLoop_spec :
    ∀ (k : ℕ) (r c : ℤ) (b : Board), inB r c → b.length = 81 →
      (k : ℤ) ≤ flatPos r c →
      ∃ r2 c2 b2, rollbackLoop k r c b = some (r2, c2, b2) ∧ inB r2 c2 ∧
        flatPos r2 c2 = flatPos r c - k ∧ b2.length = 81 ∧
        (∀ x y : ℤ, inB x y →
          cellR b2 x y =
            if flatPos r2 c2 < flatPos x y ∧ flatPos x y ≤ flatPos r c then 0
            else cellR b x y) := by
  intro k
  induction k with
  | zero =>
    intro r c b hin hb _
    refine ⟨r, c, b, rfl, hin, by simp, hb, ?_⟩
    intro x y hxy
    rw [if_neg (by omega)]
  | succ k ih =>
    intro r c b hin hb hk
    have hb0 : (setR b r c 0).length = 81 := by rw [setR_length]; exact hb
    have hk9 : (((k + 1 : ℕ)) : ℤ) ≤ 9 * r + c := hk
    have hw := hin
    obtain ⟨w1, w2, w3, w4⟩ := hw
    by_cases hc : 0 < c
    · have heq : rollbackLoop (k + 1) r c b =
          rollbackLoop k r (c - 1) (setR b r c 0) := by
        rw [rollbackLoop, set_value_eq hin]
        dsimp only
        rw [if_pos hc]
      have hin2 : inB r (c - 1) := ⟨w1, w2, by omega, by omega⟩
      have hk2 : (k : ℤ) ≤ flatPos r (c - 1) := by
        show (k : ℤ) ≤ 9 * r + (c - 1)
        omega
      obtain ⟨r2, c2, b2, h1, h2, h3, h4, h5⟩ :=
        ih r (c - 1) (setR b r c 0) hin2 hb0 hk2
      have h39 : 9 * r2 + c2 = 9 * r + (c - 1) - (k : ℤ) := h3
      refine ⟨r2, c2, b2, heq.trans h1, h2, ?_, h4, ?_⟩
      · show 9 * r2 + c2 = 9 * r + c - ((k + 1 : ℕ) : ℤ)
        omega
      · intro x y hxy
        rw [h5 x y hxy, cellR_setR b hb x y hin hxy 0]
        obtain ⟨u1, u2, u3, u4⟩ := hxy
        obtain ⟨v1, v2, v3, v4⟩ := h2
        simp only [flatPos]
        split_ifs <;> first | rfl | (exfalso; omega)
    · have heq : rollbackLoop (k + 1) r c b =
          rollbackLoop k (r - 1) 8 (setR b r c 0) := by
        rw [rollbackLoop, set_value_eq hin]
        dsimp only
        rw [if_neg hc]
      have hr1 : 1 ≤ r := by omega
      have hin2 : inB (r - 1) 8 := ⟨by omega, by omega, by omega, by omega⟩
      have hk2 : (k : ℤ) ≤ flatPos (r - 1) 8 := by
        show (k : ℤ) ≤ 9 * (r - 1) + 8
        omega
      obtain ⟨r2, c2, b2, h1, h2, h3, h4, h5⟩ :=
        ih (r - 1) 8 (setR b r c 0) hin2 hb0 hk2
      have h39 : 9 * r2 + c2 = 9 * (r - 1) + 8 - (k : ℤ) := h3
      refine ⟨r2, c2, b2, heq.trans h1, h2, ?_, h4, ?_⟩
      · show 9 * r2 + c2 = 9 * r + c - ((k + 1 : ℕ) : ℤ)
        omega
      · intro x y hxy
        rw [h5 x y hxy, cellR_setR b hb x y hin hxy 0]
        obtain ⟨u1, u2, u3, u4⟩ := hxy
        obtain ⟨v1, v2, v3, v4⟩ := h2
        simp only [flatPos]
        split_ifs <;> first | rfl | (exfalso; omega)

/-! ## From the partial invariant to the full invariant -/

lemma r3_vals : ∀ x ∈ r3, 0 ≤ x ∧ x ≤ 2 := by decide

/-- Mapping pairwise-distinct points to pairwise-distinct values gives
a duplicate-free list. -/
lemma nodup_map_of_pairwise_ne {α : Type} (E : List α) (f : α → ℤ)
    (hE : E.Pairwise (· ≠ ·))
    (h : ∀ a ∈ E, ∀ a2 ∈ E, a ≠ a2 → f a ≠ f a2) : (E.map f).Nodup := by
  have hpw : (E.map f).Pairwise (· ≠ ·) := by
    rw [List.pairwise_map]
    refine List.Pairwise.imp_of_mem ?_ hE
    intro a1 a2 h1 h2 hne
    exact h a1 h1 a2 h2 hne
  exact hpw

/-- A duplicate-free list of nine values from 1..9 holds each digit
exactly once. -/
lemma count_eq_one_of_nodup_list (l : List ℤ) (hlen : l.length = 9)
    (hnd : l.Nodup) (hmem : ∀ x ∈ l, 1 ≤ x ∧ x ≤ 9) :
    ∀ v ∈ digits, l.count v = 1 := by
  have hsub : l.toFinset ⊆ Finset.Icc (1 : ℤ) 9 := by
    intro x hx
    rw [List.mem_toFinset] at hx
    rw [Finset.mem_Icc]
    exact hmem x hx
  have hcard : (Finset.Icc (1 : ℤ) 9).card = 9 := by
    rw [Int.card_Icc]
    rfl
  have heq : l.toFinset = Finset.Icc (1 : ℤ) 9 := by
    apply Finset.eq_of_subset_of_card_le hsub
    rw [hcard, List.toFinset_card_of_nodup hnd, hlen]
  intro v hv
  have hvIcc : v ∈ Finset.Icc (1 : ℤ) 9 := by
    rw [Finset.mem_Icc]
    exact (by decide : ∀ v ∈ digits, 1 ≤ v ∧ v ≤ 9) v hv
  have hvl : v ∈ l := by
    rw [← List.mem_toFinset, heq]
    exact hvIcc
  have h1 := List.nodup_iff_count_le_one.mp hnd v
  have h2 := List.count_pos_iff.mpr hvl
  omega

/-- A complete board (no zeros, cells in range, no duplicates) meets
the full-board invariant. -/
lemma fullInv_of_noDup (b : Board) (hrange : cellRange b)
    (hnz : ∀ r c : ℤ, inB r c → cellR b r c ≠ 0) (hnd : noDup b) :
    fullInv b := by
  refine ⟨?_, ?_, ?_, ?_⟩
  · intro r hr c hc
    obtain ⟨q1, q2⟩ := L9_vals r hr
    obtain ⟨q3, q4⟩ := L9_vals c hc
    exact hnz r c ⟨q1, q2, q3, q4⟩
  · intro r hr v hv
    obtain ⟨q1, q2⟩ := L9_vals r hr
    refine count_eq_one_of_nodup_list _ (by rfl) ?_ ?_ v hv
    · refine nodup_map_of_pairwise_ne L9 _ (by decide) ?_
      intro c1 hc1 c2 hc2 hne
      obtain ⟨e1, e2⟩ := L9_vals c1 hc1
      obtain ⟨e3, e4⟩ := L9_vals c2 hc2
      exact hnd r c2 ⟨q1, q2, e3, e4⟩ (hnz r c2 ⟨q1, q2, e3, e4⟩)
        r c1 ⟨q1, q2, e1, e2⟩ (Or.inr (Or.inl rfl))
        (by rintro ⟨_, e⟩; exact hne e)
    · intro x hx
      rw [rowList, List.mem_map] at hx
      obtain ⟨c0, hc0, rfl⟩ := hx
      obtain ⟨e1, e2⟩ := L9_vals c0 hc0
      have g1 := hrange r c0 ⟨q1, q2, e1, e2⟩
      have g2 := hnz r c0 ⟨q1, q2, e1, e2⟩
      show 1 ≤ cellR b r c0 ∧ cellR b r c0 ≤ 9
      omega
  · intro c hc v hv
    obtain ⟨q1, q2⟩ := L9_vals c hc
    refine count_eq_one_of_nodup_list _ (by rfl) ?_ ?_ v hv
    · refine nodup_map_of_pairwise_ne L9 _ (by decide) ?_
      intro r1 hr1 r2 hr2 hne
      obtain ⟨e1, e2⟩ := L9_vals r1 hr1
      obtain ⟨e3, e4⟩ := L9_vals r2 hr2
      exact hnd r2 c ⟨e3, e4, q1, q2⟩ (hnz r2 c ⟨e3, e4, q1, q2⟩)
        r1 c ⟨e1, e2, q1, q2⟩ (Or.inr (Or.inr rfl))
        (by rintro ⟨e, _⟩; exact hne e)
    · intro x hx
      rw [colList, List.mem_map] at hx
      obtain ⟨r0, hr0, rfl⟩ := hx
      obtain ⟨e1, e2⟩ := L9_vals r0 hr0
      have g1 := hrange r0 c ⟨e1, e2, q1, q2⟩
      have g2 := hnz r0 c ⟨e1, e2, q1, q2⟩
      show 1 ≤ cellR b r0 c ∧ cellR b r0 c ≤ 9
      omega
  · intro br hbr bc hbc v hv
    obtain ⟨q1, q2⟩ := r3_vals br hbr
    obtain ⟨q3, q4⟩ := r3_vals bc hbc
    have hmapeq : blockList b br bc =
        E33.map fun p => cellR b (3 * br + p.1) (3 * bc + p.2) := rfl
    have hlen : (E33.map fun p => cellR b (3 * br + p.1) (3 * bc + p.2)).length = 9 := by
      rw [List.length_map]
      rfl
    rw [hmapeq]
    refine count_eq_one_of_nodup_list _ hlen ?_ ?_ v hv
    · refine nodup_map_of_pairwise_ne E33 _ (by decide) ?_
      intro p1 hp1 p2 hp2 hne
      obtain ⟨e1, e2, e3, e4⟩ := E33_bounds p1 hp1
      obtain ⟨e5, e6, e7, e8⟩ := E33_bounds p2 hp2
      obtain ⟨i1, j1⟩ := p1
      obtain ⟨i2, j2⟩ := p2
      have hin1 : inB (3 * br + i1) (3 * bc + j1) :=
        ⟨by omega, by omega, by omega, by omega⟩
      have hin2 : inB (3 * br + i2) (3 * bc + j2) :=
        ⟨by omega, by omega, by omega, by omega⟩
      refine hnd _ _ hin2 (hnz _ _ hin2) _ _ hin1 (Or.inl ⟨by omega, by omega⟩) ?_
      rintro ⟨ex, ey⟩
      refine hne ?_
      rw [Prod.mk.injEq]
      exact ⟨by omega, by omega⟩
    · intro x hx
      rw [List.mem_map] at hx
      obtain ⟨p, hp, rfl⟩ := hx
      obtain ⟨e1, e2, e3, e4⟩ := E33_bounds p hp
      have hin : inB (3 * br + p.1) (3 * bc + p.2) :=
        ⟨by omega, by omega, by omega, by omega⟩
      have g1 := hrange _ _ hin
      have g2 := hnz _ _ hin
      show 1 ≤ cellR b (3 * br + p.1) (3 * bc + p.2) ∧
        cellR b (3 * br + p.1) (3 * bc + p.2) ≤ 9
      omega

/-! ## Preservation of the invariant by one generator step -/

lemma MachineInv_init : MachineInv initState := by
  show MachineInv ⟨List.replicate 81 0, 0, 0, range10, 0⟩
  refine ⟨by simp, ⟨by norm_num, by norm_num, by norm_num, by norm_num⟩,
    List.Subset.refl _, ?_, ?_, ?_, ?_⟩
  · intro x y _
    rw [cellR_zeroBoard]
    exact ⟨le_refl 0, by norm_num⟩
  · intro x y hxy hflt
    exfalso
    obtain ⟨u1, u2, u3, u4⟩ := hxy
    have h9 : 9 * x + y < 9 * (0 : ℤ) + 0 := hflt
    omega
  · intro x y hxy _
    exact cellR_zeroBoard x y
  · intro x y hxy hne0 u v huv hp hne
    exfalso
    apply hne0
    rw [cellR_setR (List.replicate 81 0) (by simp) x y
      ⟨by norm_num, by norm_num, by norm_num, by norm_num⟩ hxy 0]
    split_ifs
    · rfl
    · exact cellR_zeroBoard x y

lemma MachineInv_step (rbf : ℤ) (d : ℕ) (s : GenState) (h : MachineInv s) :
    OutInv (makeBoardStep rbf d s) := by
  obtain ⟨hlen, hcur, hpool, hrange, hbefore, hafter, hnd0⟩ := h
  obtain ⟨res, hres, hiff⟩ := check_legal_iff hcur s.board
  unfold makeBoardStep
  rw [hres]
  obtain ⟨w1, w2, w3, w4⟩ := hcur
  cases res with
  | true =>
    obtain ⟨hcz, hno⟩ := hiff.mp rfl
    have hndb : noDup s.board :=
      noDup_of_place s.board hlen ⟨w1, w2, w3, w4⟩ hno hnd0
    by_cases hc9 : s.col_idx + 1 < 9
    · rw [if_pos hc9]
      show MachineInv ⟨s.board, s.row_idx, s.col_idx + 1, range10, 0⟩
      have hin2 : inB s.row_idx (s.col_idx + 1) := ⟨w1, w2, by omega, by omega⟩
      refine ⟨hlen, hin2, List.Subset.refl _, hrange, ?_, ?_, ?_⟩
      · intro x y hxy hflt
        obtain ⟨u1, u2, u3, u4⟩ := hxy
        have h9 : 9 * x + y < 9 * s.row_idx + (s.col_idx + 1) := hflt
        rcases (by omega :
            9 * x + y < 9 * s.row_idx + s.col_idx ∨
              (x = s.row_idx ∧ y = s.col_idx)) with hlt | ⟨rfl, rfl⟩
        · exact hbefore x y ⟨u1, u2, u3, u4⟩ hlt
        · exact hcz
      · intro x y hxy hflt
        have h9 : 9 * s.row_idx + (s.col_idx + 1) < 9 * x + y := hflt
        exact hafter x y hxy (by show 9 * s.row_idx + s.col_idx < 9 * x + y; omega)
      · refine noDup_of_pointwise _ s.board ?_ hndb
        intro u v huv
        rw [cellR_setR s.board hlen u v hin2 huv 0]
        split_ifs
        · exact Or.inr rfl
        · exact Or.inl rfl
    · rw [if_neg hc9]
      by_cases hr9 : s.row_idx + 1 < 9
      · rw [if_pos hr9]
        show MachineInv ⟨s.board, s.row_idx + 1, 0, range10, 0⟩
        have hin2 : inB (s.row_idx + 1) 0 := ⟨by omega, by omega, by omega, by omega⟩
        refine ⟨hlen, hin2, List.Subset.refl _, hrange, ?_, ?_, ?_⟩
        · intro x y hxy hflt
          obtain ⟨u1, u2, u3, u4⟩ := hxy
          have h9 : 9 * x + y < 9 * (s.row_idx + 1) + 0 := hflt
          rcases (by omega :
              9 * x + y < 9 * s.row_idx + s.col_idx ∨
                (x = s.row_idx ∧ y = s.col_idx)) with hlt | ⟨rfl, rfl⟩
          · exact hbefore x y ⟨u1, u2, u3, u4⟩ hlt
          · exact hcz
        · intro x y hxy hflt
          have h9 : 9 * (s.row_idx + 1) + 0 < 9 * x + y := hflt
          exact hafter x y hxy (by show 9 * s.row_idx + s.col_idx < 9 * x + y; omega)
        · refine noDup_of_pointwise _ s.board ?_ hndb
          intro u v huv
          rw [cellR_setR s.board hlen u v hin2 huv 0]
          split_ifs
          · exact Or.inr rfl
          · exact Or.inl rfl
      · rw [if_neg hr9]
        show fullInv s.board
        refine fullInv_of_noDup s.board hrange ?_ hndb
        intro x y hxy
        obtain ⟨u1, u2, u3, u4⟩ := hxy
        rcases (by omega :
            9 * x + y < 9 * s.row_idx + s.col_idx ∨
              (x = s.row_idx ∧ y = s.col_idx)) with hlt | ⟨rfl, rfl⟩
        · exact hbefore x y ⟨u1, u2, u3, u4⟩ hlt
        · exact hcz
  | false =>
    by_cases hpe : s.possible_values.isEmpty
    · rw [if_pos hpe]
      have hm := min_le_right rbf (s.col_idx + s.row_idx * 8)
      have hkle : (((min rbf (s.col_idx + s.row_idx * 8)).toNat : ℤ)) ≤
          flatPos s.row_idx s.col_idx := by
        show _ ≤ 9 * s.row_idx + s.col_idx
        omega
      obtain ⟨r2, c2, b2, hroll, hin2, hflat2, hlen2, hcells⟩ :=
        rollbackLoop_spec (min rbf (s.col_idx + s.row_idx * 8)).toNat
          s.row_idx s.col_idx s.board ⟨w1, w2, w3, w4⟩ hlen hkle
      rw [hroll]
      show MachineInv ⟨b2, r2, c2, range10, 0⟩
      obtain ⟨v1, v2, v3, v4⟩ := hin2
      have hf2 : 9 * r2 + c2 =
          9 * s.row_idx + s.col_idx -
            ((min rbf (s.col_idx + s.row_idx * 8)).toNat : ℤ) := hflat2
      refine ⟨hlen2, ⟨v1, v2, v3, v4⟩, List.Subset.refl _, ?_, ?_, ?_, ?_⟩
      · intro x y hxy
        rw [hcells x y hxy]
        split_ifs
        · exact ⟨le_refl 0, by norm_num⟩
        · exact hrange x y hxy
      · intro x y hxy hflt
        obtain ⟨u1, u2, u3, u4⟩ := hxy
        have h9 : 9 * x + y < 9 * r2 + c2 := hflt
        have hcond : ¬(flatPos r2 c2 < flatPos x y ∧
            flatPos x y ≤ flatPos s.row_idx s.col_idx) := by
          simp only [flatPos]
          omega
        rw [hcells x y ⟨u1, u2, u3, u4⟩, if_neg hcond]
        exact hbefore x y ⟨u1, u2, u3, u4⟩
          (by show 9 * x + y < 9 * s.row_idx + s.col_idx; omega)
      · intro x y hxy hflt
        obtain ⟨u1, u2, u3, u4⟩ := hxy
        have h9 : 9 * r2 + c2 < 9 * x + y := hflt
        rw [hcells x y ⟨u1, u2, u3, u4⟩]
        split_ifs with hwin
        · rfl
        · have hwin9 : ¬(9 * r2 + c2 < 9 * x + y ∧
              9 * x + y ≤ 9 * s.row_idx + s.col_idx) := hwin
          exact hafter x y ⟨u1, u2, u3, u4⟩ (by show 9 * s.row_idx + s.col_idx < 9 * x + y; omega)
      · refine noDup_of_pointwise _ (setR s.board s.row_idx s.col_idx 0) ?_ hnd0
        intro u v huv
        obtain ⟨z1, z2, z3, z4⟩ := huv
        rw [cellR_setR b2 hlen2 u v ⟨v1, v2, v3, v4⟩ ⟨z1, z2, z3, z4⟩ 0]
        split_ifs with h1
        · exact Or.inr rfl
        · rw [hcells u v ⟨z1, z2, z3, z4⟩]
          split_ifs with h2
          · exact Or.inr rfl
          · refine Or.inl ?_
            have hcond : ¬(u = s.row_idx ∧ v = s.col_idx) := by
              rintro ⟨rfl, rfl⟩
              have h19 : ¬(s.row_idx = r2 ∧ s.col_idx = c2) := h1
              have h29 : ¬(9 * r2 + c2 < 9 * s.row_idx + s.col_idx ∧
                  9 * s.row_idx + s.col_idx ≤ 9 * s.row_idx + s.col_idx) := h2
              omega
            rw [cellR_setR s.board hlen u v ⟨w1, w2, w3, w4⟩ ⟨z1, z2, z3, z4⟩ 0,
              if_neg hcond]
    · rw [if_neg hpe]
      by_cases hpve : (s.possible_values.erase s.val).isEmpty
      · rw [if_pos hpve]
        show MachineInv ⟨s.board, s.row_idx, s.col_idx,
          s.possible_values.erase s.val, s.val⟩
        exact ⟨hlen, ⟨w1, w2, w3, w4⟩,
          fun x hx => hpool (List.erase_subset _ _ hx),
          hrange, hbefore, hafter, hnd0⟩
      · rw [if_neg hpve]
        have hpvne : s.possible_values.erase s.val ≠ [] := by
          simpa [List.isEmpty_iff] using hpve
        have hvmem := choicePick_mem d (s.possible_values.erase s.val) hpvne
        obtain ⟨g0, g9⟩ := range10_vals _ (hpool (List.erase_subset _ _ hvmem))
        rw [set_value_eq ⟨w1, w2, w3, w4⟩]
        show MachineInv ⟨setR s.board s.row_idx s.col_idx
            (choicePick d (s.possible_values.erase s.val)),
          s.row_idx, s.col_idx, s.possible_values.erase s.val,
          choicePick d (s.possible_values.erase s.val)⟩
        have hlen2 : (setR s.board s.row_idx s.col_idx
            (choicePick d (s.possible_values.erase s.val))).length = 81 := by
          rw [setR_length]; exact hlen
        refine ⟨hlen2, ⟨w1, w2, w3, w4⟩,
          fun x hx => hpool (List.erase_subset _ _ hx), ?_, ?_, ?_, ?_⟩
        · intro x y hxy
          rw [cellR_setR s.board hlen x y ⟨w1, w2, w3, w4⟩ hxy _]
          split_ifs
          · exact ⟨g0, g9⟩
          · exact hrange x y hxy
        · intro x y hxy hflt
          obtain ⟨u1, u2, u3, u4⟩ := hxy
          have h9 : 9 * x + y < 9 * s.row_idx + s.col_idx := hflt
          have hcond : ¬(x = s.row_idx ∧ y = s.col_idx) := by
            rintro ⟨rfl, rfl⟩
            omega
          rw [cellR_setR s.board hlen x y ⟨w1, w2, w3, w4⟩ ⟨u1, u2, u3, u4⟩ _,
            if_neg hcond]
          exact hbefore x y ⟨u1, u2, u3, u4⟩ hflt
        · intro x y hxy hflt
          obtain ⟨u1, u2, u3, u4⟩ := hxy
          have h9 : 9 * s.row_idx + s.col_idx < 9 * x + y := hflt
          have hcond : ¬(x = s.row_idx ∧ y = s.col_idx) := by
            rintro ⟨rfl, rfl⟩
            omega
          rw [cellR_setR s.board hlen x y ⟨w1, w2, w3, w4⟩ ⟨u1, u2, u3, u4⟩ _,
            if_neg hcond]
          exact hafter x y ⟨u1, u2, u3, u4⟩ hflt
        · refine noDup_of_pointwise _ (setR s.board s.row_idx s.col_idx 0) ?_ hnd0
          intro u v huv
          rw [cellR_setR _ hlen2 u v ⟨w1, w2, w3, w4⟩ huv 0]
          split_ifs with h1
          · refine Or.inl ?_
            rw [cellR_setR s.board hlen u v ⟨w1, w2, w3, w4⟩ huv 0, if_pos h1]
          · refine Or.inl ?_
            rw [cellR_setR s.board hlen u v ⟨w1, w2, w3, w4⟩ huv _, if_neg h1,
              cellR_setR s.board hlen u v ⟨w1, w2, w3, w4⟩ huv 0, if_neg h1]

lemma OutInv_stepO (rbf : ℤ) (d : ℕ) (o : GenOutcome) (h : OutInv o) :
    OutInv (stepO rbf d o) := by
  cases o with
  | running s => exact MachineInv_step rbf d s h
  | finished b => exact h
  | error => exact h.elim

/-- The invariant holds after any number of generator steps. -/
lemma OutInv_runSeg (rbf : ℤ) (stream : ℕ → ℕ) (a n : ℕ) (o : GenOutcome)
    (h : OutInv o) : OutInv (runSeg rbf stream a n o) := by
  induction n with
  | zero => exact h
  | succ n ih => exact OutInv_stepO _ _ _ ih

lemma OutInv_makeBoardRun (rbf : ℤ) (stream : ℕ → ℕ) (n : ℕ) :
    OutInv (makeBoardRun rbf stream n) :=
  OutInv_runSeg rbf stream 0 n _ MachineInv_init

/-! ## The non-terminating run -/

/-- After the 70-step prefix the bad run sits at the dead-end state. -/
lemma badRun_prefix : makeBoardRun 8 badStream 70 = .running cycState := by decide

/-- One period of the bad cycle returns to the dead-end state. -/
lemma badRun_cycle : runSeg 8 badStream 70 26 (.running cycState) = .running cycState := by
  decide

/-- The draws of the bad stream repeat with period 26 beyond step 70. -/
lemma badStream_periodic (m i : ℕ) (hi : i < 26) :
    badStream (70 + 26 * m + i) = badStream (70 + i) := by
  unfold badStream
  rw [if_neg (by omega), if_neg (by omega)]
  have h1 : 70 + 26 * m + i - 70 = i + 26 * m := by omega
  have h2 : 70 + i - 70 = i := by omega
  rw [h1, h2, Nat.add_mul_mod_self_left, Nat.mod_eq_of_lt hi]

lemma badRun_loops (m : ℕ) :
    makeBoardRun 8 badStream (70 + 26 * m) = .running cycState := by
  induction m with
  | zero => exact badRun_prefix
  | succ m ih =>
    have hsplit : 70 + 26 * (m + 1) = (70 + 26 * m) + 26 := by omega
    rw [hsplit]
    unfold makeBoardRun
    rw [runSeg_append 8 badStream 0 (70 + 26 * m) 26 (.running initState)]
    rw [show runSeg 8 badStream 0 (70 + 26 * m) (.running initState) =
      makeBoardRun 8 badStream (70 + 26 * m) from rfl, ih]
    rw [runSeg_congr_stream 8 badStream badStream (0 + (70 + 26 * m)) 70 26
      (.running cycState) (fun i hi => by
        rw [show 0 + (70 + 26 * m) + i = 70 + 26 * m + i by omega]
        exact badStream_periodic m i hi)]
    exact badRun_cycle

/-- The bad run never finishes: it cycles through the dead end at
(3,8) forever. -/
lemma badRun_never_finishes (n : ℕ) (b : Board) :
    makeBoardRun 8 badStream n ≠ .finished b := by
  intro hfin
  have hle : n ≤ 70 + 26 * n := by omega
  have habs : makeBoardRun 8 badStream (70 + 26 * n) = .finished b := by
    unfold makeBoardRun
    rw [show 70 + 26 * n = n + (70 + 26 * n - n) by omega,
      runSeg_append 8 badStream 0 n (70 + 26 * n - n) (.running initState)]
    rw [show runSeg 8 badStream 0 n (.running initState) =
      makeBoardRun 8 badStream n from rfl, hfin]
    exact runSeg_finished _ _ _ _ _
  rw [badRun_loops n] at habs
  exact GenOutcome.noConfusion habs

set_option maxRecDepth 4000 in
/-- Driven by the draws of a valid grid, the generator finishes in 162
steps (one placement and one advance per cell) with that grid. -/
lemma demoRun_finishes : makeBoardRun 8 demoStream 162 = .finished demoBoard := by
  decide

/-! ## Masker lemmas -/

lemma hideLoop_spec (ind : ℕ → Fin 9 × Fin 9) :
    ∀ (n : ℕ) (b : Board), b.length = 81 →
      ∃ b2, hideLoop ind n b = some b2 ∧ b2.length = 81 ∧
        (∀ x y : ℤ, inB x y →
          cellR b2 x y = cellR b x y ∨ cellR b2 x y = 0) ∧
        (∀ x y : ℤ, inB x y → cellR b2 x y ≠ cellR b x y →
          ∃ i, i < n ∧ ((ind i).1.val : ℤ) = x ∧ ((ind i).2.val : ℤ) = y) := by
  intro n
  induction n with
  | zero =>
    intro b hb
    refine ⟨b, rfl, hb, fun x y _ => Or.inl rfl, ?_⟩
    intro x y _ hne
    exact absurd rfl hne
  | succ n ih =>
    intro b hb
    obtain ⟨b2, h1, hlen2, hpt, hfind⟩ := ih b hb
    have hx9 := (ind n).1.isLt
    have hy9 := (ind n).2.isLt
    have hinI : inB ((ind n).1.val : ℤ) ((ind n).2.val : ℤ) :=
      ⟨by omega, by omega, by omega, by omega⟩
    refine ⟨setR b2 ((ind n).1.val : ℤ) ((ind n).2.val : ℤ) 0, ?_, ?_, ?_, ?_⟩
    · rw [hideLoop, h1]
      exact set_value_eq hinI b2 0
    · rw [setR_length]; exact hlen2
    · intro x y hxy
      rw [cellR_setR b2 hlen2 x y hinI hxy 0]
      split_ifs
      · exact Or.inr rfl
      · exact hpt x y hxy
    · intro x y hxy hne
      rw [cellR_setR b2 hlen2 x y hinI hxy 0] at hne
      by_cases hcase : x = ((ind n).1.val : ℤ) ∧ y = ((ind n).2.val : ℤ)
      · exact ⟨n, by omega, hcase.1.symm, hcase.2.symm⟩
      · rw [if_neg hcase] at hne
        obtain ⟨i, hi, hix, hiy⟩ := hfind x y hxy hne
        exact ⟨i, by omega, hix, hiy⟩

/-- The behaviour of `hide_portion_of_board`: it returns a board (no
error), every cell is either unchanged or zero, at most `num_to_hide`
cells change, and with difficulty 0 the board is returned unchanged. -/
lemma hide_spec (board : Board) (difficulty : ℚ) (ind : ℕ → Fin 9 × Fin 9)
    (hlen : board.length = 81) :
    ∃ b2, hide_portion_of_board board difficulty ind = some b2 ∧
      b2.length = 81 ∧
      (∀ x y : ℤ, inB x y →
        cellR b2 x y = cellR board x y ∨ cellR b2 x y = 0) ∧
      (changedCells board b2).card ≤ (num_to_hide difficulty).toNat ∧
      (difficulty = 0 → b2 = board) := by
  obtain ⟨b2, h1, hlen2, hpt, hfind⟩ :=
    hideLoop_spec ind (num_to_hide difficulty).toNat board hlen
  refine ⟨b2, h1, hlen2, hpt, ?_, ?_⟩
  · have hsub : changedCells board b2 ⊆
        (Finset.range (num_to_hide difficulty).toNat).image ind := by
      intro p hp
      rw [changedCells, Finset.mem_filter] at hp
      have hinP : inB (p.1.val : ℤ) (p.2.val : ℤ) :=
        ⟨by omega, by have := p.1.isLt; omega, by omega, by have := p.2.isLt; omega⟩
      obtain ⟨i, hi, hix, hiy⟩ := hfind _ _ hinP hp.2
      rw [Finset.mem_image]
      refine ⟨i, Finset.mem_range.mpr hi, ?_⟩
      have e1 : (ind i).1 = p.1 := Fin.ext (by omega)
      have e2 : (ind i).2 = p.2 := Fin.ext (by omega)
      exact Prod.ext_iff.mpr ⟨e1, e2⟩
    calc (changedCells board b2).card
        ≤ ((Finset.range (num_to_hide difficulty).toNat).image ind).card :=
          Finset.card_le_card hsub
      _ ≤ (Finset.range (num_to_hide difficulty).toNat).card :=
          Finset.card_image_le
      _ = (num_to_hide difficulty).toNat := Finset.card_range _
  · intro h0
    have hnum : num_to_hide difficulty = 0 := by
      rw [h0]
      norm_num [num_to_hide]
    rw [hnum] at h1
    exact (Option.some.inj h1).symm

/-! ## The claims -/

/-- Claim C3: for row and col in 0..8, get_idx(row, col) returns
exactly (row / 3, col / 3, row % 3, col % 3), in the order (block-row,
block-col, inner-row, inner-col). -/
theorem claim_C3_get_idx_div_mod (r c : ℤ)
    (h : 0 ≤ r ∧ r ≤ 8 ∧ 0 ≤ c ∧ c ≤ 8) :
    get_idx r c = some (r / 3, c / 3, r % 3, c % 3) :=
  get_idx_spec h

/-- Witness for C3 at the concrete pair (3, 7), which maps to
(1, 2, 0, 1). -/
theorem claim_C3_witness :
    (0 ≤ (3 : ℤ) ∧ (3 : ℤ) ≤ 8 ∧ 0 ≤ (7 : ℤ) ∧ (7 : ℤ) ≤ 8) ∧
      get_idx 3 7 = some (1, 2, 0, 1) :=
  ⟨by decide, by rw [claim_C3_get_idx_div_mod 3 7 (by decide)]; decide⟩

/-- Claim C4: get_idx is injective on the 81 flat coordinates, lands
in (0..2)^4, inverts through to_flat (round trip), and attains every
block coordinate. -/
theorem claim_C4_get_idx_bijection :
    (∀ r c r2 c2 : ℤ, inB r c → inB r2 c2 →
      get_idx r c = get_idx r2 c2 → r = r2 ∧ c = c2) ∧
    (∀ r c : ℤ, inB r c → ∃ a b i j : ℤ, get_idx r c = some (a, b, i, j) ∧
      0 ≤ a ∧ a ≤ 2 ∧ 0 ≤ b ∧ b ≤ 2 ∧ 0 ≤ i ∧ i ≤ 2 ∧ 0 ≤ j ∧ j ≤ 2 ∧
      to_flat (a, b, i, j) = (r, c)) ∧
    (∀ a b i j : ℤ, 0 ≤ a → a ≤ 2 → 0 ≤ b → b ≤ 2 → 0 ≤ i → i ≤ 2 →
      0 ≤ j → j ≤ 2 → get_idx (3 * a + i) (3 * b + j) = some (a, b, i, j)) := by
  refine ⟨?_, ?_, ?_⟩
  · intro r c r2 c2 h1 h2 he
    rw [get_idx_spec h1, get_idx_spec h2] at he
    simp only [Option.some.injEq, Prod.mk.injEq] at he
    obtain ⟨e1, e2, e3, e4⟩ := he
    obtain ⟨w1, w2, w3, w4⟩ := h1
    obtain ⟨v1, v2, v3, v4⟩ := h2
    exact ⟨by omega, by omega⟩
  · intro r c h
    obtain ⟨w1, w2, w3, w4⟩ := h
    refine ⟨r / 3, c / 3, r % 3, c % 3, get_idx_spec ⟨w1, w2, w3, w4⟩,
      by omega, by omega, by omega, by omega, by omega, by omega,
      by omega, by omega, ?_⟩
    show (3 * (r / 3) + r % 3, 3 * (c / 3) + c % 3) = (r, c)
    rw [Prod.mk.injEq]
    exact ⟨by omega, by omega⟩
  · intro a b i j ha1 ha2 hb1 hb2 hi1 hi2 hj1 hj2
    have h : inB (3 * a + i) (3 * b + j) :=
      ⟨by omega, by omega, by omega, by omega⟩
    rw [get_idx_spec h]
    have e1 : (3 * a + i) / 3 = a := by omega
    have e2 : (3 * b + j) / 3 = b := by omega
    have e3 : (3 * a + i) % 3 = i := by omega
    have e4 : (3 * b + j) % 3 = j := by omega
    rw [e1, e2, e3, e4]

/-- Witness for C4: the round trip through the block coordinates at
the flat pair (3, 7). -/
theorem claim_C4_witness :
    inB 3 7 ∧ (∃ a b i j : ℤ, get_idx 3 7 = some (a, b, i, j) ∧
      0 ≤ a ∧ a ≤ 2 ∧ 0 ≤ b ∧ b ≤ 2 ∧ 0 ≤ i ∧ i ≤ 2 ∧ 0 ≤ j ∧ j ≤ 2 ∧
      to_flat (a, b, i, j) = (3, 7)) :=
  ⟨by decide, claim_C4_get_idx_bijection.2.1 3 7 (by decide)⟩

/-- Claim C2: on in-range coordinates, check_legal returns a result,
and the result is true iff the target cell is non-zero and no other
cell in its 3x3 block, its flat row, or its flat column holds the
target value. -/
theorem claim_C2_check_legal_rule (r c : ℤ) (b : Board) (h : inB r c) :
    ∃ res : Bool, check_legal r c b = some res ∧
      (res = true ↔ (cellR b r c ≠ 0 ∧
        ∀ r2 c2 : ℤ, inB r2 c2 →
          (sameBlock r c r2 c2 ∨ r = r2 ∨ c = c2) → ¬(r2 = r ∧ c2 = c) →
          cellR b r2 c2 ≠ cellR b r c)) :=
  check_legal_iff h b

/-- Witness for C2, on the spec's concrete scenario: flat row 0 holds
5 at column 0, value 5 is then written at (0, 3), and
check_legal(0, 3) returns false. -/
theorem claim_C2_witness :
    check_legal 0 3 (setR (setR (List.replicate 81 0) 0 0 5) 0 3 5)
        = some false ∧
      (inB 0 3 ∧ ∃ res : Bool,
        check_legal 0 3 (setR (setR (List.replicate 81 0) 0 0 5) 0 3 5)
            = some res ∧
          (res = true ↔
            (cellR (setR (setR (List.replicate 81 0) 0 0 5) 0 3 5) 0 3 ≠ 0 ∧
            ∀ r2 c2 : ℤ, inB r2 c2 →
              (sameBlock 0 3 r2 c2 ∨ 0 = r2 ∨ 3 = c2) → ¬(r2 = 0 ∧ c2 = 3) →
              cellR (setR (setR (List.replicate 81 0) 0 0 5) 0 3 5) r2 c2 ≠
                cellR (setR (setR (List.replicate 81 0) 0 0 5) 0 3 5) 0 3))) :=
  ⟨by decide,
   by decide,
   claim_C2_check_legal_rule 0 3 (setR (setR (List.replicate 81 0) 0 0 5) 0 3 5)
     (by decide)⟩

/-- Claim C1: every board the generator returns satisfies the
full-board invariant: no zeros, and every block, flat row, and flat
column holds each digit 1..9 exactly once — for any rollback factor,
any draw stream, and any number of loop iterations. -/
theorem claim_C1_generator_fullInv (rollback_factor : ℤ) (stream : ℕ → ℕ)
    (n : ℕ) (b : Board)
    (h : makeBoardRun rollback_factor stream n = .finished b) : fullInv b := by
  have hinv := OutInv_makeBoardRun rollback_factor stream n
  rw [h] at hinv
  exact hinv

/-- Witness for C1: a complete 162-step run of the generator, whose
result satisfies the full-board invariant. -/
theorem claim_C1_witness : fullInv demoBoard :=
  claim_C1_generator_fullInv 8 demoStream 162 demoBoard demoRun_finishes

/-- Claim C8: the generator never raises InvalidCoordinate: the cursor
and every internal get_idx / set_value / check_legal call stay in
range, for any rollback factor, stream and iteration count. -/
theorem claim_C8_no_error (rollback_factor : ℤ) (stream : ℕ → ℕ) (n : ℕ) :
    makeBoardRun rollback_factor stream n ≠ .error := by
  intro h
  have hinv := OutInv_makeBoardRun rollback_factor stream n
  rw [h] at hinv
  exact hinv

/-- Counterexample to C9 as stated: it is not the case that the
generation loop reaches Done for every sequence of random draws — the
explicit stream badStream loops forever. -/
theorem claim_C9_counterexample :
    ¬ ∀ stream : ℕ → ℕ, ∃ n b, makeBoardRun 8 stream n = .finished b := by
  intro h
  obtain ⟨n, b, hn⟩ := h badStream
  exact badRun_never_finishes n b hn

/-- Claim C9 (amended): the generation loop reaches Done for some draw
sequences, but not for every one — with the default rollback factor 8
there is a draw sequence under which it never reaches Done. -/
theorem claim_C9_amended :
    (∃ stream : ℕ → ℕ, ∃ n b, makeBoardRun 8 stream n = .finished b) ∧
    (∃ stream : ℕ → ℕ, ∀ n b, makeBoardRun 8 stream n ≠ .finished b) :=
  ⟨⟨demoStream, 162, demoBoard, demoRun_finishes⟩,
   ⟨badStream, badRun_never_finishes⟩⟩

/-- Claim C5: set_value is copy-on-write: it returns a board whose
target cell holds the value and whose other cells are unchanged (the
input board, being a value, is untouched). -/
theorem claim_C5_set_value_frame (b : Board) (r c v : ℤ)
    (hb : b.length = 81) (h : inB r c) :
    ∃ b2, set_value r c b v = some b2 ∧ cellR b2 r c = v ∧
      (∀ r2 c2 : ℤ, inB r2 c2 → ¬(r2 = r ∧ c2 = c) →
        cellR b2 r2 c2 = cellR b r2 c2) ∧
      b2.length = b.length := by
  refine ⟨setR b r c v, set_value_eq h b v, ?_, ?_, by rw [setR_length]⟩
  · rw [cellR_setR b hb r c h h v, if_pos ⟨rfl, rfl⟩]
  · intro r2 c2 h2 hne
    rw [cellR_setR b hb r2 c2 h h2 v, if_neg hne]

/-- Witness for C5 at a concrete write of 9 into cell (2, 5) of the
demo board. -/
theorem claim_C5_witness :
    (demoBoard.length = 81 ∧ inB 2 5) ∧
      ∃ b2, set_value 2 5 demoBoard 9 = some b2 ∧ cellR b2 2 5 = 9 ∧
        (∀ r2 c2 : ℤ, inB r2 c2 → ¬(r2 = 2 ∧ c2 = 5) →
          cellR b2 r2 c2 = cellR demoBoard r2 c2) ∧
        b2.length = demoBoard.length :=
  ⟨⟨by decide, by decide⟩,
   claim_C5_set_value_frame demoBoard 2 5 9 (by decide) (by decide)⟩

/-- Counterexample to C6 as stated: set_value does not raise
InvalidValue for a value outside 0..9 — writing 15 succeeds. -/
theorem claim_C6_counterexample :
    set_value 0 0 (List.replicate 81 0) 15 ≠ none := by decide

/-- Claim C6 (amended): set_value fails exactly when row or col is
outside 0..8 (the InvalidCoordinate assert in get_idx); the value is
never checked, so no error is raised for any value, in or out of
0..9. -/
theorem claim_C6_amended (r c : ℤ) (b : Board) (v : ℤ) :
    set_value r c b v = none ↔ ¬(0 ≤ r ∧ r ≤ 8 ∧ 0 ≤ c ∧ c ≤ 8) :=
  set_value_eq_none_iff r c b v

/-- Claim C7: the masker returns a board in which every cell is either
the input cell or zero, at most floor(81 * difficulty) cells change,
and difficulty 0 returns the board unchanged. -/
theorem claim_C7_hide_portion (board : Board) (difficulty : ℚ)
    (ind : ℕ → Fin 9 × Fin 9) (hlen : board.length = 81)
    (h0 : 0 ≤ difficulty) (_h1 : difficulty ≤ 1) :
    ∃ b2, hide_portion_of_board board difficulty ind = some b2 ∧
      (∀ x y : ℤ, inB x y →
        cellR b2 x y = cellR board x y ∨ cellR b2 x y = 0) ∧
      ((changedCells board b2).card : ℤ) ≤ ⌊81 * difficulty⌋ ∧
      (difficulty = 0 → b2 = board) := by
  obtain ⟨b2, g1, g2, g3, g4, g5⟩ := hide_spec board difficulty ind hlen
  have hmul : (0 : ℚ) ≤ 81 * difficulty := by positivity
  have hnum : num_to_hide difficulty = ⌊81 * difficulty⌋ := by
    rw [num_to_hide, if_pos hmul]
  refine ⟨b2, g1, g3, ?_, g5⟩
  have hfl : 0 ≤ ⌊(81 : ℚ) * difficulty⌋ := Int.floor_nonneg.mpr hmul
  calc ((changedCells board b2).card : ℤ)
      ≤ ((num_to_hide difficulty).toNat : ℤ) := by exact_mod_cast g4
    _ = num_to_hide difficulty := Int.toNat_of_nonneg (by rw [hnum]; exact hfl)
    _ = ⌊81 * difficulty⌋ := hnum

/-- Witness for C7 at difficulty 0 on the demo board: the masker
returns it unchanged. -/
theorem claim_C7_witness :
    (demoBoard.length = 81 ∧ (0 : ℚ) ≤ 0 ∧ (0 : ℚ) ≤ 1) ∧
      ∃ b2, hide_portion_of_board demoBoard 0 (fun _ => (0, 0)) = some b2 ∧
        (∀ x y : ℤ, inB x y →
          cellR b2 x y = cellR demoBoard x y ∨ cellR b2 x y = 0) ∧
        ((changedCells demoBoard b2).card : ℤ) ≤ ⌊(81 : ℚ) * 0⌋ ∧
        ((0 : ℚ) = 0 → b2 = demoBoard) :=
  ⟨⟨by decide, by norm_num, by norm_num⟩,
   claim_C7_hide_portion demoBoard 0 (fun _ => (0, 0)) (by decide)
     (by norm_num) (by norm_num)⟩

/-- Claim C10: check_legal depends only on the cells of the containing
block, flat row, and flat column: two boards that agree on those cells
get the same result. -/
theorem claim_C10_check_legal_local (r c : ℤ) (b1 b2 : Board) (h : inB r c)
    (hagree : ∀ p : Fin 9 × Fin 9,
      (sameBlock r c (p.1.val : ℤ) (p.2.val : ℤ) ∨ r = (p.1.val : ℤ) ∨
        c = (p.2.val : ℤ)) →
      cellR b1 (p.1.val : ℤ) (p.2.val : ℤ) =
        cellR b2 (p.1.val : ℤ) (p.2.val : ℤ)) :
    check_legal r c b1 = check_legal r c b2 := by
  obtain ⟨w1, w2, w3, w4⟩ := h
  have hagreeZ : ∀ r2 c2 : ℤ, inB r2 c2 →
      (sameBlock r c r2 c2 ∨ r = r2 ∨ c = c2) →
      cellR b1 r2 c2 = cellR b2 r2 c2 := by
    intro r2 c2 h2 hp
    obtain ⟨z1, z2, z3, z4⟩ := h2
    have e1 : ((r2.toNat : ℕ) : ℤ) = r2 := Int.toNat_of_nonneg z1
    have e2 : ((c2.toNat : ℕ) : ℤ) = c2 := Int.toNat_of_nonneg z3
    have := hagree (⟨r2.toNat, by omega⟩, ⟨c2.toNat, by omega⟩)
    simp only [e1, e2] at this
    exact this hp
  have hval : cellR b1 r c = cellR b2 r c :=
    hagreeZ r c ⟨w1, w2, w3, w4⟩ (Or.inr (Or.inl rfl))
  have hL1 : (r3.bind fun i => r3.map fun j => get4 b1 (r / 3) (c / 3) i j)
      = (r3.bind fun i => r3.map fun j => get4 b2 (r / 3) (c / 3) i j) := by
    rw [show (r3.bind fun i => r3.map fun j => get4 b1 (r / 3) (c / 3) i j)
        = E33.map fun p => get4 b1 (r / 3) (c / 3) p.1 p.2 from rfl,
      show (r3.bind fun i => r3.map fun j => get4 b2 (r / 3) (c / 3) i j)
        = E33.map fun p => get4 b2 (r / 3) (c / 3) p.1 p.2 from rfl]
    apply List.map_congr_left
    intro p hp
    obtain ⟨q1, q2, q3, q4⟩ := E33_bounds p hp
    have e1 : (3 * (r / 3) + p.1) / 3 = r / 3 := by omega
    have e2 : (3 * (r / 3) + p.1) % 3 = p.1 := by omega
    have e3 : (3 * (c / 3) + p.2) / 3 = c / 3 := by omega
    have e4 : (3 * (c / 3) + p.2) % 3 = p.2 := by omega
    have hcell := hagreeZ (3 * (r / 3) + p.1) (3 * (c / 3) + p.2)
      ⟨by omega, by omega, by omega, by omega⟩
      (Or.inl ⟨by omega, by omega⟩)
    unfold cellR at hcell
    rw [e1, e2, e3, e4] at hcell
    exact hcell
  have hL2 : (r3.bind fun b => r3.map fun j => get4 b1 (r / 3) b (r % 3) j)
      = (r3.bind fun b => r3.map fun j => get4 b2 (r / 3) b (r % 3) j) := by
    rw [show (r3.bind fun b => r3.map fun j => get4 b1 (r / 3) b (r % 3) j)
        = E33.map fun p => get4 b1 (r / 3) p.1 (r % 3) p.2 from rfl,
      show (r3.bind fun b => r3.map fun j => get4 b2 (r / 3) b (r % 3) j)
        = E33.map fun p => get4 b2 (r / 3) p.1 (r % 3) p.2 from rfl]
    apply List.map_congr_left
    intro p hp
    obtain ⟨q1, q2, q3, q4⟩ := E33_bounds p hp
    have e1 : (3 * p.1 + p.2) / 3 = p.1 := by omega
    have e2 : (3 * p.1 + p.2) % 3 = p.2 := by omega
    have hcell := hagreeZ r (3 * p.1 + p.2)
      ⟨by omega, by omega, by omega, by omega⟩ (Or.inr (Or.inl rfl))
    unfold cellR at hcell
    rw [e1, e2] at hcell
    exact hcell
  have hL3 : (r3.bind fun a => r3.map fun i => get4 b1 a (c / 3) i (c % 3))
      = (r3.bind fun a => r3.map fun i => get4 b2 a (c / 3) i (c % 3)) := by
    rw [show (r3.bind fun a => r3.map fun i => get4 b1 a (c / 3) i (c % 3))
        = E33.map fun p => get4 b1 p.1 (c / 3) p.2 (c % 3) from rfl,
      show (r3.bind fun a => r3.map fun i => get4 b2 a (c / 3) i (c % 3))
        = E33.map fun p => get4 b2 p.1 (c / 3) p.2 (c % 3) from rfl]
    apply List.map_congr_left
    intro p hp
    obtain ⟨q1, q2, q3, q4⟩ := E33_bounds p hp
    have e1 : (3 * p.1 + p.2) / 3 = p.1 := by omega
    have e2 : (3 * p.1 + p.2) % 3 = p.2 := by omega
    have hcell := hagreeZ (3 * p.1 + p.2) c
      ⟨by omega, by omega, by omega, by omega⟩ (Or.inr (Or.inr rfl))
    unfold cellR at hcell
    rw [e1, e2] at hcell
    exact hcell
  rw [check_legal_eq_of_inB ⟨w1, w2, w3, w4⟩ b1,
    check_legal_eq_of_inB ⟨w1, w2, w3, w4⟩ b2]
  unfold cellR at hval
  rw [hval, hL1, hL2, hL3]

/-- Witness for C10: changing the far cell (8, 8) of the demo board
does not change the legality verdict at (0, 0). -/
theorem claim_C10_witness :
    inB 0 0 ∧ check_legal 0 0 demoBoard
      = check_legal 0 0 (setR demoBoard 8 8 0) :=
  ⟨by decide,
   claim_C10_check_legal_local 0 0 demoBoard (setR demoBoard 8 8 0)
     (by decide) (by decide)⟩
